import Mathlib

/-!
Verification development for the libra-reader text-indexing and
annotation-persistence core.

JavaScript strings are modelled as `List Char` (`Str`).  JavaScript numbers
that are used as integers (character offsets, millisecond timestamps) are
modelled as `Int`/`Nat`; the two fractional quantities (`textPosition`,
`progress`) are modelled as exact rationals (`ℚ`) in place of IEEE-754
doubles.  Fallible external collaborators (the `localStorage` key-value
store, the renderer's overlay store) are modelled explicitly; each such
model carries a comment naming what it stands for.
-/

namespace Libra

abbrev Str := List Char

/-- Whitespace as recognised by JavaScript `trim` and the `\s` regex class
(restricted to the ASCII range, which is all the repository's code relies on). -/
def isJsWS (c : Char) : Bool :=
  (c == ' ') || (c == '\t') || (c == '\n') || (c == '\r') ||
    (c == Char.ofNat 11) || (c == Char.ofNat 12)

/-- Model of `String.prototype.trimStart` restricted to a char list. -/
def trimL (l : Str) : Str := l.dropWhile isJsWS

/-- Model of `String.prototype.trimEnd`. -/
def trimR (l : Str) : Str := (l.reverse.dropWhile isJsWS).reverse

/-- Model of `String.prototype.trim`. -/
def trimStr (l : Str) : Str := trimL (trimR l)

/-- Model of `s.slice(-n)`: the last `n` characters (all of `s` when it is
shorter than `n`). -/
def takeLastN (n : Nat) (l : Str) : Str := l.drop (l.length - n)

/-- Index of the last newline of `l`, if any. -/
def lastNl (l : Str) : Option Nat :=
  match l.reverse.findIdx? (fun c => c == '\n') with
  | none => none
  | some j => some (l.length - 1 - j)

/-- Worker for `splitParas`: scans the text, breaking at each match of the
separator regex `\n\s*\n` (a newline, then greedily as much whitespace as
still leaves a final newline to consume).  `acc` holds the characters of the
paragraph currently being read, in reverse.  `fuel` only bounds the
recursion so that the definition stays structurally recursive (and hence
kernel-computable); every step consumes at least one character, so the
initial fuel `t.length + 1` is never exhausted. -/
def splitParasAux : Nat → Str → Str → List Str
  | 0, _, acc => [acc.reverse]
  | _ + 1, [], acc => [acc.reverse]
  | fuel + 1, c :: t, acc =>
    if c == '\n' then
      match lastNl (t.takeWhile isJsWS) with
      | some k => acc.reverse :: splitParasAux fuel (t.drop (k + 1)) []
      | none => splitParasAux fuel t (c :: acc)
    else splitParasAux fuel t (c :: acc)

/-- Model of `textContent.split(/\n\s*\n/)` from `createChunksForSection`. -/
def splitParas (t : Str) : List Str := splitParasAux (t.length + 1) t []

/-- The `TextChunk` entity (src/app/src/types/index.ts).  `pageLocation` is
resolved asynchronously after the build and is absent on freshly built
chunks. -/
structure TextChunk where
  id : Str
  text : Str
  href : Str
  spineIndex : Nat
  chunkIndex : Nat
  startOffset : Int
  endOffset : Int
  pageLocation : Option Str
deriving DecidableEq

/-- The chunk id `` `${href}-chunk-${chunkIndex}` ``. -/
def chunkId (href : Str) (idx : Nat) : Str :=
  href ++ ("-chunk-").toList ++ Nat.toDigits 10 idx

/-- The paragraph-accumulation loop of `createChunksForSection`
(EpubReader.tsx 1365-1397): greedily joins paragraphs with single spaces;
when appending the next paragraph would push the buffer past `chunkSize`
(500) it closes the current chunk (trimmed) and seeds the next buffer with
the trailing `overlap` (50) characters of the closed, untrimmed buffer. -/
def chunkLoop (href : Str) (spine : Nat) :
    List Str → Str → Int → Nat → List TextChunk
  | [], cur, off, idx =>
    if 0 < (trimStr cur).length then
      [⟨chunkId href idx, trimStr cur, href, spine, idx,
        off - (cur.length : Int), off, none⟩]
    else []
  | p :: ps, cur, off, idx =>
    if 500 < cur.length + p.length ∧ 0 < cur.length then
      ⟨chunkId href idx, trimStr cur, href, spine, idx,
        off - (cur.length : Int), off, none⟩ ::
        chunkLoop href spine ps (takeLastN 50 cur ++ ' ' :: p)
          (off + (p.length : Int) + 1) (idx + 1)
    else
      chunkLoop href spine ps
        (if cur.length = 0 then p else cur ++ ' ' :: p)
        (off + (p.length : Int) + 1) idx

/-- The buffer extension produced by joining further paragraphs onto a
chunk buffer with single spaces, as the accumulation loop does: used to
describe intermediate buffers in proofs about `chunkLoop`. -/
def joins : List Str → Str
  | [] => []
  | q :: qs => ' ' :: (q ++ joins qs)

/-- Model of `createChunksForSection(textContent, href, spineIndex)`
(EpubReader.tsx 1356-1399) with its fixed configuration
`chunkSize = 500`, `overlap = 50`. -/
def createChunksForSection (textContent href : Str) (spineIndex : Nat) :
    List TextChunk :=
  let paragraphs := (splitParas textContent).filter
    (fun p => decide (0 < (trimStr p).length))
  chunkLoop href spineIndex paragraphs [] 0 0

/-- Model of `String.prototype.toLowerCase` (simple per-character lowering). -/
def lowerStr (l : Str) : Str := l.map Char.toLower

/-- Model of `a.includes(b)` on strings. -/
def strIncludes (a b : Str) : Bool := decide (b <:+: a)

/-- One spine section as `buildTextChunks` consumes it: its `href` and the
`textContent` of its loaded document body.  `none` models the failure
branches (`spine.get` returning nothing, a missing `document`/`body`, or a
load error), all of which make the loop `continue`. -/
structure SectionDoc where
  href : Str
  text : Option Str
deriving DecidableEq

/-- The filename-based metadata filter of `buildTextChunks`
(EpubReader.tsx 1296-1306): skip structural sections by href keyword. -/
def skipHrefKeywords (hl : Str) : Bool :=
  strIncludes hl (("toc").toList) ||
  strIncludes hl (("copyright").toList) ||
  strIncludes hl (("titlepage").toList) ||
  strIncludes hl (("cover").toList) ||
  strIncludes hl (("nav").toList) ||
  strIncludes hl (("contents").toList) ||
  strIncludes hl (("frontmatter").toList) ||
  strIncludes hl (("backmatter").toList)

/-- Spelling of `"translator's preface"` (built without an apostrophe
literal). -/
def translatorsPreface : Str :=
  ("translator").toList ++ [Char.ofNat 39] ++ ("s preface").toList

/-- The content-based heuristic filter of `buildTextChunks`
(EpubReader.tsx 1323-1332), with JavaScript `&&`/`||` precedence. -/
def contentFiltered (t : Str) : Bool :=
  let cl := lowerStr t
  strIncludes cl (("table of contents").toList) ||
  strIncludes cl translatorsPreface ||
  (strIncludes cl (("contents").toList) && strIncludes cl (("part i").toList)) ||
  (strIncludes cl (("project gutenberg").toList) && decide (t.length < 2000)) ||
  (strIncludes cl (("copyright").toList) && decide (t.length < 1000)) ||
  (strIncludes cl (("contents").toList) && strIncludes cl (("chapter").toList) &&
    decide (t.length < 1500))

/-- Whether `buildTextChunks` retains a spine section, i.e. reaches the call
to `createChunksForSection` for it (EpubReader.tsx 1292-1334). -/
def sectionRetained (s : SectionDoc) : Bool :=
  if skipHrefKeywords (lowerStr s.href) then false
  else match s.text with
    | none => false
    | some t =>
      if (trimStr t).isEmpty then false
      else if (trimStr t).length < 200 then false
      else if contentFiltered t then false
      else true

/-- The per-section append of `buildTextChunks` (EpubReader.tsx 1336-1342):
each chunk is pushed with its `chunkIndex` field overwritten by the current
length of the global list. -/
def appendSectionChunks (acc : List TextChunk) (cs : List TextChunk) :
    List TextChunk :=
  cs.foldl (fun a c => a ++ [{ c with chunkIndex := a.length }]) acc

/-- The spine loop of `buildTextChunks` (EpubReader.tsx 1292-1346). -/
def buildLoop : List SectionDoc → Nat → List TextChunk → List TextChunk
  | [], _, acc => acc
  | s :: rest, i, acc =>
    buildLoop rest (i + 1)
      (if sectionRetained s then
        appendSectionChunks acc
          (createChunksForSection (s.text.getD []) s.href i)
      else acc)

/-- Model of `buildTextChunks` (EpubReader.tsx 1278-1354): the list of
chunks passed to `setTextChunks` after the spine loop, as a function of the
loaded sections.  (The subsequent asynchronous `mapChunksToPages` pass only
attaches `pageLocation`s and does not touch indices or texts.) -/
def buildTextChunks (sections : List SectionDoc) : List TextChunk :=
  buildLoop sections 0 []

/-- The `SearchResult` entity (src/app/src/types/index.ts).  `textPosition`
is an exact-rational stand-in for the JavaScript float division
`match.index / chunk.text.length`. -/
structure SearchResult where
  cfi : Str
  excerpt : Str
  terms : List Str
  href : Str
  spineIndex : Nat
  textOffset : Int
  textPosition : ℚ
  chunkIndex : Nat
deriving DecidableEq

/-- Case-insensitive literal match of `q` at position `i` of `t`: the model
of one successful `regex.exec` step for the escaped, `gi`-flagged pattern
built in `performSearch`. -/
def matchesAt (q t : Str) (i : Nat) : Bool :=
  (lowerStr q).isPrefixOf (lowerStr (t.drop i))

/-- The `regex.exec` loop of `performSearch`: indices of the
non-overlapping, leftmost case-insensitive occurrences of `q` in `t`,
scanning from `i` and advancing by the match length.  (An empty `q` is
unreachable behind the non-blank-query guard and yields no matches here.)
`fuel` only bounds the recursion structurally; every step advances `i` by
at least one, so the initial fuel `t.length + 1` is never exhausted. -/
def findMatchesAux (q t : Str) : Nat → Nat → List Nat
  | 0, _ => []
  | fuel + 1, i =>
    if t.length < i then []
    else if q.length = 0 then []
    else if matchesAt q t i then i :: findMatchesAux q t fuel (i + q.length)
    else findMatchesAux q t fuel (i + 1)

/-- All match indices of `q` in `t`. -/
def findMatches (q t : Str) : List Nat := findMatchesAux q t (t.length + 1) 0

/-- Integer printing for the `` `#offset=${globalOffset}` `` template. -/
def intToChars : Int → Str
  | Int.ofNat n => Nat.toDigits 10 n
  | Int.negSucc n => '-' :: Nat.toDigits 10 (n + 1)

/-- One `SearchResult` as `performSearch` builds it (EpubReader.tsx
509-531) for match index `m` of chunk `ch`, which is entry number `ci` of
the searched chunk list.  `chunk.pageLocation || fallback` follows
JavaScript truthiness: an absent or empty `pageLocation` selects the
synthesized `href#offset=N` target. -/
def mkSearchResult (q : Str) (ci : Nat) (ch : TextChunk) (m : Nat) :
    SearchResult :=
  let contextStart := m - 100
  let contextEnd := min ch.text.length (m + q.length + 100)
  let excerpt := trimStr ((ch.text.drop contextStart).take (contextEnd - contextStart))
  let globalOffset := ch.startOffset + (m : Int)
  let fallback := ch.href ++ ("#offset=").toList ++ intToChars globalOffset
  let cfi := match ch.pageLocation with
    | some pl => if pl.isEmpty then fallback else pl
    | none => fallback
  ⟨cfi, excerpt, [q], ch.href, ch.spineIndex, globalOffset,
    (m : ℚ) / (ch.text.length : ℚ), ci⟩

/-- The chunk-scanning part of `performSearch` (EpubReader.tsx 506-536). -/
def searchChunks (q : Str) (chunks : List TextChunk) : List SearchResult :=
  (chunks.enum).flatMap
    (fun e => (findMatches q e.2.text).map (fun m => mkSearchResult q e.1 e.2 m))

/-- The component state `performSearch` touches: the published search
results and the `textChunks` React state. -/
structure SearchOutcome where
  results : List SearchResult
  textChunksState : List TextChunk
deriving DecidableEq

/-- Model of `performSearch` (EpubReader.tsx 484-543).

`textChunksState` is the value of the `textChunks` `useState` binding
captured by the closure for the current render.  When it is empty the code
awaits `buildTextChunks()`, whose `setTextChunks(allChunks)` only schedules
a state update for the NEXT render; the assignment `chunks = textChunks`
that follows re-reads the same stale closure constant, so the scan that
produces the results still runs over the captured snapshot.  The built list
becomes visible only as the next render's state (second component).
On a blank query the function returns before touching any state
(`prevResults` stays published). -/
def performSearch (searchQuery : Str) (prevResults : List SearchResult)
    (textChunksState : List TextChunk) (sections : List SectionDoc) :
    SearchOutcome :=
  if (trimStr searchQuery).isEmpty then ⟨prevResults, textChunksState⟩
  else
    let chunks := textChunksState
    if chunks.length = 0 then
      let built := buildTextChunks sections
      let chunksSearched := textChunksState
      ⟨searchChunks searchQuery chunksSearched, built⟩
    else ⟨searchChunks searchQuery chunks, textChunksState⟩

/-- The highlight colour enum (`'yellow'` is its only inhabitant). -/
inductive Colour where
  | yellow
deriving DecidableEq

/-- The `Highlight` entity (src/app/src/types/index.ts).  Timestamps are
milliseconds since the epoch. -/
structure Highlight where
  id : Str
  bookId : Str
  cfi : Str
  text : Str
  colour : Colour
  note : Option Str
  createdAt : Int
  updatedAt : Int
deriving DecidableEq

/-- The `Note` entity (src/app/src/types/index.ts). -/
structure Note where
  id : Str
  bookId : Str
  cfiRange : Str
  content : Str
  createdAt : Int
  updatedAt : Int
deriving DecidableEq

/-- Modelled from the spec: one entry of the renderer's overlay
(annotation) store (§6 `addOverlay(kind, range, style, tag)`): its kind
(`type`), bound range (`cfiRange`) and attached callback data, which this
application always sets to `\x7b highlightId \x7d`, modelled as the
optional id.  The style payload carries no program-visible information and
is omitted. -/
structure Annot where
  type : Str
  cfiRange : Str
  data : Option Str
deriving DecidableEq

/-- Modelled from the spec: the key under which the renderer stores an
overlay (its hash of `cfiRange + type`), which is also what the
application's `Object.keys(annotations._annotations)` scans enumerate. -/
def annotKey (a : Annot) : Str := a.cfiRange ++ a.type

/-- The renderer-side overlay store: entries in insertion order, keyed by
`annotKey`. -/
abbrev AnnotStore := List Annot

/-- Modelled from the spec: `annotations.add(type, cfiRange, ..., data)`.
Re-adding under an existing key replaces that entry in place; otherwise the
overlay is appended. -/
def annotAdd (st : AnnotStore) (ty cfi : Str) (d : Option Str) : AnnotStore :=
  let a : Annot := ⟨ty, cfi, d⟩
  if st.any (fun b => annotKey b == annotKey a) then
    st.map (fun b => if annotKey b == annotKey a then a else b)
  else st ++ [a]

/-- The overlay kind this application creates. -/
def hlTypeStr : Str := ("highlight").toList

/-- The key prefix of transient search decorations
(`'search-highlight-'`). -/
def searchPrefixStr : Str := ("search-highlight-").toList

/-- Model of `cfi.split('!')[0]`: the chapter-path prefix of a CFI. -/
def chapterOf (c : Str) : Str := c.takeWhile (fun x => !(x == '!'))

/-- The two duplicate checks the restoration loop performs before creating
an overlay for candidate highlight `h` (EpubReader.tsx 920-937): an overlay
whose attached data already carries `h`'s id, or a `highlight`-type overlay
already bound to `h`'s exact stored CFI. -/
def dupSkip (st : AnnotStore) (h : Highlight) : Bool :=
  st.any (fun a => a.data == some h.id) ||
    st.any (fun a => a.cfiRange == h.cfi && a.type == hlTypeStr)

/-- Model of `restoreHighlightsOnCurrentPage` (EpubReader.tsx 868-964) as a
transformation of the overlay store.  `highlights` is the
`highlightsRef.current` list and `currentCfi` the start CFI of the
renderer's current location (`none` when no location is available, which
makes the function return early).  After its early exits the function
clears `search-highlight-` keyed overlays, then walks the candidate
highlights of the current chapter, skipping any candidate that already has
an overlay tagged with its id or a `highlight`-type overlay bound to its
exact stored CFI, and creating the missing overlays with the highlight id
as attached data.  (The trailing `addHighlightClickHandlers` call installs
DOM listeners only and does not touch the store.) -/
def restoreHighlightsOnCurrentPage (annots : AnnotStore)
    (highlights : List Highlight) (currentCfi : Option Str) : AnnotStore :=
  if highlights.isEmpty then annots
  else match currentCfi with
    | none => annots
    | some cur =>
      if (highlights.filter
          (fun h => chapterOf h.cfi == chapterOf cur)).isEmpty then annots
      else
        (highlights.filter (fun h => chapterOf h.cfi == chapterOf cur)).foldl
          (fun st h =>
            if dupSkip st h then st
            else annotAdd st hlTypeStr h.cfi (some h.id))
          (annots.filter
            (fun a => !(searchPrefixStr.isPrefixOf (annotKey a))))

/-- The `ReaderSettings` record (fractional fields as exact rationals). -/
structure ReaderSettings where
  fontSize : ℚ
  fontFamily : Str
  theme : Str
  columns : Nat
  lineHeight : ℚ
  margin : ℚ
deriving DecidableEq

/-- A bookmark record of `BookMetadata`. -/
structure Bookmark where
  id : Str
  location : Str
  label : Str
  createdAt : Int
deriving DecidableEq

/-- A search-history record of `BookMetadata`. -/
structure SearchHistoryEntry where
  query : Str
  timestamp : Int
  resultCount : Nat
deriving DecidableEq

/-- A per-settings page mapping of `BookMetadata` (the `Map`s appear as
ordered key-value lists; `saveMetadata`/`getAllMetadata` convert them to and
from plain objects, which this parsed-level model treats as the identity). -/
structure PageMapping where
  chunkToPageMap : List (Nat × Str)
  pageToChunkMap : List (Str × List Nat)
  totalPages : Nat
  settings : ReaderSettings
  createdAt : Int
deriving DecidableEq

/-- The `BookMetadata` record (src/app/src/tauri-fs.d.ts 32-77). -/
structure BookMetadata where
  bookId : Str
  title : Str
  author : Str
  currentLocation : Str
  progress : ℚ
  lastRead : Int
  textChunks : List TextChunk
  chunksLastBuilt : Int
  pageMappings : List (Str × PageMapping)
  notes : List Note
  highlights : List Highlight
  bookmarks : List Bookmark
  readingTime : ℚ
  sessionsCount : Nat
  averageReadingSpeed : ℚ
  searchHistory : List SearchHistoryEntry
  customSettings : Option ReaderSettings
  createdAt : Int
  updatedAt : Int
deriving DecidableEq

/-- The parsed contents of the `'libra-book-metadata'` localStorage value:
a record from bookId to metadata, modelled as an ordered key-value list. -/
abbrev MetaStore := List (Str × BookMetadata)

/-- Replace-or-append on an ordered key-value list: the model of
`record[key] = value` (and of `Map.prototype.set`). -/
def setAssoc {α : Type} (l : List (Str × α)) (k : Str) (v : α) :
    List (Str × α) :=
  if l.any (fun e => e.1 == k) then
    l.map (fun e => if e.1 == k then (k, v) else e)
  else l ++ [(k, v)]

namespace BookMetadataManager

/-- Model of `BookMetadataManager.getMetadata`: `allMetadata[bookId] ||
null` over the parsed store. -/
def getMetadata (bookId : Str) (store : MetaStore) : Option BookMetadata :=
  (store.find? (fun e => e.1 == bookId)).map (fun e => e.2)

/-- Model of `BookMetadataManager.saveMetadata`: writes the record back
under its own bookId with a fresh `updatedAt`.  The `Map`-to-object
serialisation round-trips at this parsed level, and the surrounding
try/catch swallows any write error, so the happy path is the model. -/
def saveMetadata (m : BookMetadata) (now : Int) (store : MetaStore) :
    MetaStore :=
  setAssoc store m.bookId { m with updatedAt := now }

/-- Model of `BookMetadataManager.updateProgress`. -/
def updateProgress (bookId : Str) (location : Str) (progress : ℚ)
    (now : Int) (store : MetaStore) : MetaStore :=
  match getMetadata bookId store with
  | none => store
  | some m =>
    saveMetadata
      { m with currentLocation := location
               progress := progress
               lastRead := now } now store

/-- Model of `BookMetadataManager.addNote`. -/
def addNote (bookId : Str) (note : Note) (now : Int) (store : MetaStore) :
    MetaStore :=
  match getMetadata bookId store with
  | none => store
  | some m => saveMetadata { m with notes := m.notes ++ [note] } now store

/-- Model of `BookMetadataManager.removeNote`. -/
def removeNote (bookId : Str) (noteId : Str) (now : Int)
    (store : MetaStore) : MetaStore :=
  match getMetadata bookId store with
  | none => store
  | some m =>
    saveMetadata
      { m with notes := m.notes.filter (fun n => !(n.id == noteId)) }
      now store

/-- Model of `BookMetadataManager.addHighlight`. -/
def addHighlight (bookId : Str) (h : Highlight) (now : Int)
    (store : MetaStore) : MetaStore :=
  match getMetadata bookId store with
  | none => store
  | some m =>
    saveMetadata { m with highlights := m.highlights ++ [h] } now store

/-- Model of `BookMetadataManager.removeHighlight`. -/
def removeHighlight (bookId : Str) (highlightId : Str) (now : Int)
    (store : MetaStore) : MetaStore :=
  match getMetadata bookId store with
  | none => store
  | some m =>
    saveMetadata
      { m with highlights :=
          m.highlights.filter (fun h => !(h.id == highlightId)) }
      now store

/-- Model of `BookMetadataManager.updateHighlight`.  The
`Partial<Highlight>` spread is modelled by the update function `upd`; the
code stamps `updatedAt` afterwards, and only saves when the highlight is
found. -/
def updateHighlight (bookId : Str) (highlightId : Str)
    (upd : Highlight → Highlight) (now : Int) (store : MetaStore) :
    MetaStore :=
  match getMetadata bookId store with
  | none => store
  | some m =>
    if m.highlights.any (fun h => h.id == highlightId) then
      saveMetadata
        { m with highlights := m.highlights.map (fun h =>
            if h.id == highlightId then { upd h with updatedAt := now }
            else h) }
        now store
    else store

/-- Model of `BookMetadataManager.saveTextChunks`. -/
def saveTextChunks (bookId : Str) (chunks : List TextChunk) (now : Int)
    (store : MetaStore) : MetaStore :=
  match getMetadata bookId store with
  | none => store
  | some m =>
    saveMetadata
      { m with textChunks := chunks, chunksLastBuilt := now } now store

end BookMetadataManager

/-- The combined state `deleteHighlight` operates on: the renderer's
overlay store, the persisted metadata store, and the in-memory highlight
list (`state.highlights` / `highlightsRef.current`, which the component
keeps in lock step). -/
structure DeleteOutcome where
  annots : AnnotStore
  store : MetaStore
  highlights : List Highlight
deriving DecidableEq

/-- Model of `deleteHighlight(highlightId)` (EpubReader.tsx 807-851): scan
the whole overlay store and remove every overlay whose attached data
carries the id (not an index lookup); remove the persisted record via
`BookMetadataManager.removeHighlight`; drop the highlight from the
in-memory list.  (The trailing page refresh re-runs
`restoreHighlightsOnCurrentPage`, modelled separately.) -/
def deleteHighlight (highlightId : Str) (bookId : Str) (now : Int)
    (annots : AnnotStore) (store : MetaStore)
    (highlights : List Highlight) : DeleteOutcome :=
  ⟨annots.filter (fun a => !(a.data == some highlightId)),
    BookMetadataManager.removeHighlight bookId highlightId now store,
    highlights.filter (fun h => !(h.id == highlightId))⟩

/-- The `ChunkSummary` cache entry (src/app/src/types/index.ts 106-113). -/
structure ChunkSummary where
  chunkId : Str
  spineIndex : Nat
  href : Str
  summary : Str
  createdAt : Int
  tokenCount : Option Nat
deriving DecidableEq

/-- The `BookSummaryCache` record: its `Map` of summaries appears as an
ordered key-value list (the array form it is serialised through). -/
structure BookSummaryCache where
  bookId : Str
  chunkSummaries : List (Str × ChunkSummary)
  lastUpdated : Int
deriving DecidableEq

/-- Modelled from the spec: one value held by the localStorage persistence
collaborator (§6).  `cache` is a value that parses back into a
`BookSummaryCache`; `raw` is any other stored string — one on which
`JSON.parse` throws. -/
inductive StoredVal where
  | cache (c : BookSummaryCache)
  | raw (s : Str)
deriving DecidableEq

/-- Modelled from the spec: the byte footprint a stored value contributes
towards the storage quota (its serialised length, up to a constant
factor). -/
def valSize : StoredVal → Nat
  | StoredVal.raw s => s.length
  | StoredVal.cache c =>
    c.bookId.length +
      c.chunkSummaries.foldl
        (fun a e => a + e.1.length + e.2.chunkId.length + e.2.href.length +
          e.2.summary.length) 0

/-- Modelled from the spec: the localStorage collaborator — ordered
key-value entries plus the quota that makes writes fail under storage
pressure. -/
structure Storage where
  entries : List (Str × StoredVal)
  capacity : Nat
deriving DecidableEq

/-- Total footprint of a list of entries. -/
def entriesSize (l : List (Str × StoredVal)) : Nat :=
  l.foldl (fun a e => a + e.1.length + valSize e.2) 0

/-- Modelled from the spec: `localStorage.getItem`. -/
def getItem (st : Storage) (k : Str) : Option StoredVal :=
  (st.entries.find? (fun e => e.1 == k)).map (fun e => e.2)

/-- Modelled from the spec: `localStorage.setItem`, which either stores the
value or throws a quota error (`none`) leaving the store unchanged. -/
def setItemRes (st : Storage) (k : Str) (v : StoredVal) : Option Storage :=
  let l := setAssoc st.entries k v
  if entriesSize l ≤ st.capacity then some { st with entries := l }
  else none

/-- Modelled from the spec: `localStorage.removeItem`. -/
def removeItem (st : Storage) (k : Str) : Storage :=
  { st with entries := st.entries.filter (fun e => !(e.1 == k)) }

namespace SummaryCacheManager

/-- `CACHE_KEY_PREFIX`. -/
def CACHE_KEY_PREFIX : Str := ("libra_summary_cache_").toList

/-- `MAX_CACHE_AGE_DAYS`. -/
def MAX_CACHE_AGE_DAYS : Int := 30

/-- Model of `getCacheKey`. -/
def getCacheKey (bookId : Str) : Str := CACHE_KEY_PREFIX ++ bookId

/-- The staleness test `daysDiff > MAX_CACHE_AGE_DAYS` with
`daysDiff = (now - lastUpdated) / (1000*60*60*24)`, carried out in exact
integer arithmetic (the source divides in floating point before
comparing). -/
def cacheExpired (now lastUpdated : Int) : Bool :=
  decide (MAX_CACHE_AGE_DAYS * 86400000 < now - lastUpdated)

/-- Model of `clearSummaryCache`. -/
def clearSummaryCache (bookId : Str) (st : Storage) : Storage :=
  removeItem st (getCacheKey bookId)

/-- Model of `loadSummaryCache` (types/index.ts 131-170): absent or
unparseable stored data yields `null` (the catch path); an entry older
than the TTL is cleared and yields `null`; otherwise the stored cache is
reconstructed (the array-to-`Map` walk round-trips here).  Returns the
result together with the possibly evicted store. -/
def loadSummaryCache (bookId : Str) (now : Int) (st : Storage) :
    Option BookSummaryCache × Storage :=
  match getItem st (getCacheKey bookId) with
  | none => (none, st)
  | some (StoredVal.raw _) => (none, st)
  | some (StoredVal.cache c) =>
    if cacheExpired now c.lastUpdated then (none, clearSummaryCache bookId st)
    else (some c, st)

/-- Model of `cleanupOldCaches` (types/index.ts 247-278): every
`libra_summary_cache_`-prefixed entry that is unparseable or older than the
TTL is removed; all other entries survive. -/
def cleanupOldCaches (now : Int) (st : Storage) : Storage :=
  { st with entries := st.entries.filter (fun e =>
      if CACHE_KEY_PREFIX.isPrefixOf e.1 then
        match e.2 with
        | StoredVal.raw _ => false
        | StoredVal.cache c => !(cacheExpired now c.lastUpdated)
      else true) }

/-- Model of `saveSummaryCache` (types/index.ts 172-187): serialise and
write; when the write throws (storage pressure) the catch block runs
`cleanupOldCaches` and returns — the write is not retried and no error
escapes. -/
def saveSummaryCache (c : BookSummaryCache) (now : Int) (st : Storage) :
    Storage :=
  match setItemRes st (getCacheKey c.bookId) (StoredVal.cache c) with
  | some st1 => st1
  | none => cleanupOldCaches now st

/-- Model of `getCachedSummary` (types/index.ts 189-196). -/
def getCachedSummary (bookId : Str) (chunkId : Str) (now : Int)
    (st : Storage) : Option ChunkSummary × Storage :=
  match loadSummaryCache bookId now st with
  | (none, st1) => (none, st1)
  | (some c, st1) =>
    ((c.chunkSummaries.find? (fun e => e.1 == chunkId)).map (fun e => e.2),
      st1)

/-- The cache value `cacheSummary` is about to save: the loaded (or fresh)
cache with the new summary set under its chunk id and a fresh
`lastUpdated`. -/
def putCacheVal (bookId : Str) (cs : ChunkSummary) (now : Int)
    (st : Storage) : BookSummaryCache :=
  let c : BookSummaryCache := match (loadSummaryCache bookId now st).1 with
    | none => ⟨bookId, [], now⟩
    | some c => c
  { c with chunkSummaries := setAssoc c.chunkSummaries cs.chunkId cs
           lastUpdated := now }

/-- Model of `cacheSummary` (types/index.ts 198-213). -/
def cacheSummary (bookId : Str) (cs : ChunkSummary) (now : Int)
    (st : Storage) : Storage :=
  saveSummaryCache (putCacheVal bookId cs now st) now
    (loadSummaryCache bookId now st).2

end SummaryCacheManager

/-- Outcome of `JSON.parse` on the stored `'libra-book-metadata'` string:
either the parse throws (`malformed`) or it yields the per-book record
set. -/
inductive ParsedMeta where
  | malformed
  | ok (records : MetaStore)
deriving DecidableEq

/-- Model of `BookMetadataManager.getAllMetadata` (tauri-fs.d.ts 125-183)
at the raw-storage level: `stored` is the raw value under
`'libra-book-metadata'` (`none` when the key is absent).  A missing value
returns the empty record; a value on which `JSON.parse` throws is caught
and returns the empty record; otherwise the date-revival and `Map`-revival
walk (the identity at this typed level) returns the parsed records. -/
def getAllMetadataRaw (stored : Option ParsedMeta) : MetaStore :=
  match stored with
  | none => []
  | some ParsedMeta.malformed => []
  | some (ParsedMeta.ok records) => records

/-- Model of `BookMetadataManager.getMetadata` built on the raw read. -/
def getMetadataRaw (bookId : Str) (stored : Option ParsedMeta) :
    Option BookMetadata :=
  BookMetadataManager.getMetadata bookId (getAllMetadataRaw stored)

/-- The mutable component environment that the `createChunksForSection`
closure could observe (the `EpubReader` React state and refs in whose scope
it is defined).  The function reads none of it. -/
structure ComponentState where
  searchQuery : Str
  textChunks : List TextChunk
  searchResults : List SearchResult
  highlights : List Highlight
  isSearching : Bool
deriving DecidableEq

/-- `createChunksForSection` as it exists in the component: a closure over
the component environment.  Its body references only its three arguments
and the local constants `chunkSize`/`overlap`, so the environment parameter
is unused. -/
def createChunksForSectionIn (_env : ComponentState)
    (textContent href : Str) (spineIndex : Nat) : List TextChunk :=
  createChunksForSection textContent href spineIndex

/-- A concrete loadable section text: 210 characters of narrative prose
containing the word `whale`, long enough to pass the minimum-length filter
and free of every href/content skip keyword. -/
def sampleSectionText : Str :=
  (String.join (List.replicate 5 ("The whale surfaced near the ship at dawn. "))).toList

/-- A concrete spine with one retained section. -/
def sampleSections : List SectionDoc :=
  [⟨("chapter1.xhtml").toList, some sampleSectionText⟩]

/-- A past timestamp and a timestamp far (more than 30 days) after it. -/
def bigNow : Int := 10000000000

/-- A summary cache persisted long ago (its entries are irrelevant). -/
def oldBookCache : BookSummaryCache := ⟨("old").toList, [], 0⟩

/-- A storage under pressure: its quota (30) admits the expired cache of
book `old` (entry footprint 26) but not that entry plus a fresh one-summary
cache for book `new` (entry footprint 30). -/
def pressureStore : Storage :=
  ⟨[(SummaryCacheManager.getCacheKey (("old").toList),
      StoredVal.cache oldBookCache)], 30⟩

/-- A small summary for book `new`. -/
def newSummary : ChunkSummary :=
  ⟨("c").toList, 0, ("h").toList, ("s").toList, bigNow, none⟩

/-- A concrete persisted highlight of book `b`. -/
def sampleHighlight : Highlight :=
  ⟨("h1").toList, ("b").toList, ("epubcfi(/6/4!/4/2)").toList,
    ("some text").toList, Colour.yellow, none, 0, 0⟩

/-- A concrete metadata record of book `b` holding `sampleHighlight`. -/
def sampleBookMetadata : BookMetadata :=
  ⟨("b").toList, ("Title").toList, ("Author").toList, [], 0, 0, [], 0, [],
    [], [sampleHighlight], [], 0, 0, 0, [], none, 0, 0⟩

/-! Theorems.  Generic helper lemmas come first, then one theorem per
specification claim (with a witness or counterexample where called for). -/

theorem find?_map_setAssoc {α : Type} (k : Str) (v : α) :
    ∀ l : List (Str × α), l.any (fun e => e.1 == k) = true →
      (l.map (fun e => if e.1 == k then (k, v) else e)).find?
        (fun e => e.1 == k) = some (k, v) := by
  intro l
  induction l with
  | nil => intro h; exact Bool.noConfusion h
  | cons e t ih =>
    intro h
    by_cases he : e.1 = k
    · rw [List.map_cons, if_pos (by simp [he])]
      exact List.find?_cons_of_pos _ (by simp)
    · have he' : (e.1 == k) = false := by simp [he]
      simp only [List.any_cons, he', Bool.false_or] at h
      rw [List.map_cons, if_neg (by simp [he]), List.find?_cons_of_neg _ (by simp [he])]
      exact ih h

theorem find?_append_setAssoc {α : Type} (k : Str) (v : α) :
    ∀ l : List (Str × α), l.any (fun e => e.1 == k) = false →
      (l ++ [(k, v)]).find? (fun e => e.1 == k) = some (k, v) := by
  intro l
  induction l with
  | nil =>
    intro h
    rw [List.nil_append]
    exact List.find?_cons_of_pos _ (by simp)
  | cons e t ih =>
    intro h
    simp only [List.any_cons, Bool.or_eq_false_iff] at h
    rw [List.cons_append, List.find?_cons_of_neg _ (by simp [h.1])]
    exact ih h.2

theorem find?_setAssoc_self {α : Type} (l : List (Str × α)) (k : Str) (v : α) :
    (setAssoc l k v).find? (fun e => e.1 == k) = some (k, v) := by
  unfold setAssoc
  cases hany : l.any (fun e => e.1 == k) with
  | true => rw [if_pos rfl]; exact find?_map_setAssoc k v l hany
  | false =>
    rw [if_neg (by exact Bool.false_ne_true)]
    exact find?_append_setAssoc k v l hany

theorem find?_filter_not_key {α : Type} (k : Str) :
    ∀ l : List (Str × α),
      (l.filter (fun e => !(e.1 == k))).find? (fun e => e.1 == k) = none := by
  intro l
  induction l with
  | nil => simp
  | cons e t ih =>
    by_cases he : e.1 = k
    · simp [List.filter_cons, he, ih]
    · simp [List.filter_cons, he, ih]

/-- C5.  After `buildTextChunks` completes, the `chunkIndex` values written
while appending each retained section's chunks to the global list form the
contiguous, strictly increasing, gap-free sequence `0, 1, ..., n-1` in
spine order. -/
theorem buildTextChunks_chunkIndex_contiguous (sections : List SectionDoc) :
    (Libra.buildTextChunks sections).map (fun c => c.chunkIndex) =
      List.range (Libra.buildTextChunks sections).length := by
  have hstep : ∀ (cs : List TextChunk) (acc : List TextChunk),
      acc.map (fun c => c.chunkIndex) = List.range acc.length →
      (appendSectionChunks acc cs).map (fun c => c.chunkIndex) =
        List.range (appendSectionChunks acc cs).length := by
    intro cs
    induction cs with
    | nil => intro acc h; simpa [appendSectionChunks] using h
    | cons c cs ih =>
      intro acc h
      have hrw : appendSectionChunks acc (c :: cs) =
          appendSectionChunks (acc ++ [{ c with chunkIndex := acc.length }]) cs := rfl
      rw [hrw]
      apply ih
      simp [h, List.range_succ]
  have hloop : ∀ (secs : List SectionDoc) (i : Nat) (acc : List TextChunk),
      acc.map (fun c => c.chunkIndex) = List.range acc.length →
      (buildLoop secs i acc).map (fun c => c.chunkIndex) =
        List.range (buildLoop secs i acc).length := by
    intro secs
    induction secs with
    | nil => intro i acc h; simpa [buildLoop] using h
    | cons s rest ih =>
      intro i acc h
      cases hr : sectionRetained s with
      | true => simp only [buildLoop, hr, if_pos rfl]; exact ih _ _ (hstep _ _ h)
      | false => simp only [buildLoop, hr]; exact ih _ _ h
  exact hloop sections 0 [] (by simp)

/-- C7.  Chunk building is a pure, deterministic function of the section
text, href and spine index: it reads nothing from the component environment
it closes over, so two runs on identical inputs — in arbitrary, possibly
different, program states — produce identical chunk sequences (identical
ids, texts, offsets and order), and it performs no effects beyond returning
that list. -/
theorem createChunksForSection_pure (env₁ env₂ : ComponentState)
    (textContent href : Str) (spineIndex : Nat) :
    createChunksForSectionIn env₁ textContent href spineIndex =
      createChunksForSectionIn env₂ textContent href spineIndex := rfl

/-- C9.  Every mutating `BookMetadataManager` operation invoked for a
`bookId` with no stored metadata record is a silent no-op: the persisted
store is returned unchanged, and (being total functions in this model,
mirroring the guarded early exits in the source) no error reaches the
caller. -/
theorem metadataOps_noop_without_record (bookId : Str) (store : MetaStore)
    (note : Note) (noteId : Str) (h : Highlight) (highlightId : Str)
    (upd : Highlight → Highlight) (location : Str) (progress : ℚ)
    (chunks : List TextChunk) (now : Int)
    (habsent : BookMetadataManager.getMetadata bookId store = none) :
    BookMetadataManager.addNote bookId note now store = store ∧
    BookMetadataManager.removeNote bookId noteId now store = store ∧
    BookMetadataManager.addHighlight bookId h now store = store ∧
    BookMetadataManager.removeHighlight bookId highlightId now store = store ∧
    BookMetadataManager.updateHighlight bookId highlightId upd now store = store ∧
    BookMetadataManager.updateProgress bookId location progress now store = store ∧
    BookMetadataManager.saveTextChunks bookId chunks now store = store := by
  refine ⟨?_, ?_, ?_, ?_, ?_, ?_, ?_⟩ <;>
    simp only [BookMetadataManager.addNote, BookMetadataManager.removeNote,
      BookMetadataManager.addHighlight, BookMetadataManager.removeHighlight,
      BookMetadataManager.updateHighlight, BookMetadataManager.updateProgress,
      BookMetadataManager.saveTextChunks, habsent]

/-- Witness for C9 at a concrete input: the empty store has no record for
book `b`, and all seven mutating operations leave it unchanged. -/
theorem metadataOps_noop_without_record_witness :
    BookMetadataManager.addNote (("b").toList)
        ⟨("n").toList, ("b").toList, [], [], 0, 0⟩ 0 [] = [] ∧
    BookMetadataManager.removeNote (("b").toList) (("n").toList) 0 [] = [] ∧
    BookMetadataManager.addHighlight (("b").toList)
        ⟨("h").toList, ("b").toList, [], [], Colour.yellow, none, 0, 0⟩ 0 [] = [] ∧
    BookMetadataManager.removeHighlight (("b").toList) (("h").toList) 0 [] = [] ∧
    BookMetadataManager.updateHighlight (("b").toList) (("h").toList) id 0 [] = [] ∧
    BookMetadataManager.updateProgress (("b").toList) [] 0 0 [] = [] ∧
    BookMetadataManager.saveTextChunks (("b").toList) [] 0 [] = [] :=
  metadataOps_noop_without_record (("b").toList) []
    ⟨("n").toList, ("b").toList, [], [], 0, 0⟩ (("n").toList)
    ⟨("h").toList, ("b").toList, [], [], Colour.yellow, none, 0, 0⟩
    (("h").toList) id [] 0 [] 0 rfl

/-- C10.  Reading persisted state is total over malformed input: a missing
or unparseable `'libra-book-metadata'` value makes `getAllMetadata` return
the empty record (the catch path) rather than throw, so `getMetadata`
built on it returns `null`; and a missing or unparseable summary-cache
value makes `loadSummaryCache` return `null` with the store untouched.
All reads are total functions of the store — no error propagates. -/
theorem reads_total_on_malformed :
    (getAllMetadataRaw none = [] ∧
      getAllMetadataRaw (some ParsedMeta.malformed) = []) ∧
    (∀ bookId : Str, getMetadataRaw bookId none = none ∧
      getMetadataRaw bookId (some ParsedMeta.malformed) = none) ∧
    (∀ (bookId : Str) (now : Int) (st : Storage),
      getItem st (SummaryCacheManager.getCacheKey bookId) = none →
      SummaryCacheManager.loadSummaryCache bookId now st = (none, st)) ∧
    (∀ (bookId : Str) (now : Int) (st : Storage) (s : Str),
      getItem st (SummaryCacheManager.getCacheKey bookId) =
        some (StoredVal.raw s) →
      SummaryCacheManager.loadSummaryCache bookId now st = (none, st)) := by
  refine ⟨⟨rfl, rfl⟩, fun bookId => ⟨rfl, rfl⟩, ?_, ?_⟩
  · intro bookId now st hnone
    simp only [SummaryCacheManager.loadSummaryCache, hnone]
  · intro bookId now st s hraw
    simp only [SummaryCacheManager.loadSummaryCache, hraw]

/-- Witness for C10 at concrete inputs: an empty storage misses the cache
key, and a storage holding an unparseable string under the cache key still
reads back as `null`. -/
theorem reads_total_on_malformed_witness :
    getMetadataRaw (("b").toList) none = none ∧
    SummaryCacheManager.loadSummaryCache (("b").toList) 0 ⟨[], 9⟩ =
      (none, ⟨[], 9⟩) ∧
    SummaryCacheManager.loadSummaryCache (("b").toList) 0
        ⟨[(SummaryCacheManager.getCacheKey (("b").toList),
            StoredVal.raw (("junk").toList))], 99⟩ =
      (none, ⟨[(SummaryCacheManager.getCacheKey (("b").toList),
            StoredVal.raw (("junk").toList))], 99⟩) :=
  ⟨(reads_total_on_malformed.2.1 (("b").toList)).1,
    reads_total_on_malformed.2.2.1 (("b").toList) 0 ⟨[], 9⟩ rfl,
    reads_total_on_malformed.2.2.2 (("b").toList) 0 _ (("junk").toList)
      (by decide)⟩

set_option maxRecDepth 20000 in
/-- C2 (failing-input evidence).  With the chunk index unbuilt (empty
`textChunks` state) and a loadable spine on which `buildTextChunks`
produces chunks containing the query, `performSearch` still publishes an
empty result list: after awaiting the build it re-reads the stale
`textChunks` closure binding instead of the chunks the build produced,
although searching those chunks would have found matches. -/
theorem performSearch_unbuilt_index_stale_read :
    (performSearch (("whale").toList) [] [] sampleSections).results = [] ∧
    Libra.buildTextChunks sampleSections ≠ [] ∧
    searchChunks (("whale").toList) (Libra.buildTextChunks sampleSections) ≠ [] := by
  refine ⟨rfl, ?_, ?_⟩ <;> decide

theorem getItem_setItemRes {st st' : Storage} {k : Str} {v : StoredVal}
    (h : setItemRes st k v = some st') : getItem st' k = some v := by
  unfold setItemRes at h
  by_cases hsz : entriesSize (setAssoc st.entries k v) ≤ st.capacity
  · rw [if_pos hsz] at h
    cases h
    unfold getItem
    rw [find?_setAssoc_self]
    rfl
  · rw [if_neg hsz] at h
    exact Option.noConfusion h

theorem getItem_removeItem (st : Storage) (k : Str) :
    getItem (removeItem st k) k = none := by
  unfold getItem removeItem
  rw [find?_filter_not_key]
  rfl

/-- C3.  For every `(bookId, chunkId)`: `getCachedSummary` returns absent
when no summary under that chunk id was ever cached for the book; after
`cacheSummary` stores a summary with that chunk id (the write fitting the
storage quota) it returns the stored summary for as long as the entry is
within the 30-day TTL; and a cached entry older than the TTL is treated as
absent and its book's cache is evicted lazily on the next access. -/
theorem summaryCache_get_put_ttl :
    (∀ (bookId chunkId : Str) (now : Int) (st : Storage),
      (∀ c, getItem st (SummaryCacheManager.getCacheKey bookId) =
          some (StoredVal.cache c) →
        c.chunkSummaries.find? (fun e => e.1 == chunkId) = none) →
      (SummaryCacheManager.getCachedSummary bookId chunkId now st).1 = none) ∧
    (∀ (bookId : Str) (cs : ChunkSummary) (now nowQ : Int) (st st' : Storage),
      setItemRes (SummaryCacheManager.loadSummaryCache bookId now st).2
          (SummaryCacheManager.getCacheKey
            (SummaryCacheManager.putCacheVal bookId cs now st).bookId)
          (StoredVal.cache (SummaryCacheManager.putCacheVal bookId cs now st)) =
        some st' →
      (SummaryCacheManager.putCacheVal bookId cs now st).bookId = bookId →
      SummaryCacheManager.cacheExpired nowQ now = false →
      (SummaryCacheManager.getCachedSummary bookId cs.chunkId nowQ
          (SummaryCacheManager.cacheSummary bookId cs now st)).1 = some cs) ∧
    (∀ (bookId chunkId : Str) (nowQ : Int) (st : Storage)
        (c : BookSummaryCache),
      getItem st (SummaryCacheManager.getCacheKey bookId) =
        some (StoredVal.cache c) →
      SummaryCacheManager.cacheExpired nowQ c.lastUpdated = true →
      (SummaryCacheManager.loadSummaryCache bookId nowQ st).1 = none ∧
      getItem (SummaryCacheManager.loadSummaryCache bookId nowQ st).2
          (SummaryCacheManager.getCacheKey bookId) = none ∧
      (SummaryCacheManager.getCachedSummary bookId chunkId nowQ st).1 =
        none) := by
  refine ⟨?_, ?_, ?_⟩
  · intro bookId chunkId now st hchunk
    cases hgi : getItem st (SummaryCacheManager.getCacheKey bookId) with
    | none =>
      simp [SummaryCacheManager.getCachedSummary,
        SummaryCacheManager.loadSummaryCache, hgi]
    | some sv =>
      cases sv with
      | raw s =>
        simp [SummaryCacheManager.getCachedSummary,
          SummaryCacheManager.loadSummaryCache, hgi]
      | cache c =>
        cases hexp : SummaryCacheManager.cacheExpired now c.lastUpdated with
        | true =>
          simp [SummaryCacheManager.getCachedSummary,
            SummaryCacheManager.loadSummaryCache, hgi, hexp]
        | false =>
          simp [SummaryCacheManager.getCachedSummary,
            SummaryCacheManager.loadSummaryCache, hgi, hexp, hchunk c hgi]
  · intro bookId cs now nowQ st st' hset hbid hexp
    have hsave : SummaryCacheManager.cacheSummary bookId cs now st = st' := by
      unfold SummaryCacheManager.cacheSummary SummaryCacheManager.saveSummaryCache
      rw [hset]
    rw [hsave]
    have hget : getItem st' (SummaryCacheManager.getCacheKey bookId) =
        some (StoredVal.cache (SummaryCacheManager.putCacheVal bookId cs now st)) := by
      have hg := getItem_setItemRes hset
      rw [hbid] at hg
      exact hg
    have hlu : (SummaryCacheManager.putCacheVal bookId cs now st).lastUpdated =
        now := rfl
    have hcs : (SummaryCacheManager.putCacheVal bookId cs now st).chunkSummaries =
        setAssoc ((match (SummaryCacheManager.loadSummaryCache bookId now st).1 with
          | none => (⟨bookId, [], now⟩ : BookSummaryCache)
          | some c => c)).chunkSummaries cs.chunkId cs := rfl
    simp [SummaryCacheManager.getCachedSummary,
      SummaryCacheManager.loadSummaryCache, hget, hlu, hexp, hcs,
      find?_setAssoc_self]
  · intro bookId chunkId nowQ st c hgi hexp
    refine ⟨?_, ?_, ?_⟩
    · simp [SummaryCacheManager.loadSummaryCache, hgi, hexp]
    · simp [SummaryCacheManager.loadSummaryCache, hgi, hexp,
        SummaryCacheManager.clearSummaryCache, getItem_removeItem]
    · simp [SummaryCacheManager.getCachedSummary,
        SummaryCacheManager.loadSummaryCache, hgi, hexp]

/-- Witness for C3 at concrete inputs: an empty storage has nothing cached
for `(b, c1)`; after `cacheSummary` the summary reads back five
milliseconds later; and a cache written at time `0` is absent and evicted
when read more than 30 days later. -/
theorem summaryCache_get_put_ttl_witness :
    (SummaryCacheManager.getCachedSummary (("b").toList) (("c1").toList) 0
        ⟨[], 1000⟩).1 = none ∧
    (SummaryCacheManager.getCachedSummary (("b").toList) (("c1").toList) 5
        (SummaryCacheManager.cacheSummary (("b").toList)
          ⟨("c1").toList, 0, ("h").toList, ("s").toList, 0, none⟩ 0
          ⟨[], 1000⟩)).1 =
      some ⟨("c1").toList, 0, ("h").toList, ("s").toList, 0, none⟩ ∧
    (SummaryCacheManager.loadSummaryCache (("b").toList) bigNow
        ⟨[(SummaryCacheManager.getCacheKey (("b").toList),
            StoredVal.cache ⟨("b").toList, [], 0⟩)], 1000⟩).1 = none := by
  refine ⟨?_, ?_, ?_⟩
  · exact summaryCache_get_put_ttl.1 (("b").toList) (("c1").toList) 0
      ⟨[], 1000⟩ (fun c hc => by exact Option.noConfusion hc)
  · exact summaryCache_get_put_ttl.2.1 (("b").toList)
      ⟨("c1").toList, 0, ("h").toList, ("s").toList, 0, none⟩ 0 5
      ⟨[], 1000⟩
      ⟨[(SummaryCacheManager.getCacheKey (("b").toList),
          StoredVal.cache ⟨("b").toList,
            [(("c1").toList,
              ⟨("c1").toList, 0, ("h").toList, ("s").toList, 0, none⟩)], 0⟩)],
        1000⟩
      (by decide) (by decide) (by decide)
  · exact (summaryCache_get_put_ttl.2.2 (("b").toList) (("c1").toList) bigNow
      ⟨[(SummaryCacheManager.getCacheKey (("b").toList),
          StoredVal.cache ⟨("b").toList, [], 0⟩)], 1000⟩
      ⟨("b").toList, [], 0⟩ (by decide) (by decide)).1

/-- C8 (counterexample).  The claim says a failed cache write is retried
once after the eviction sweep.  At this concrete input the write of book
`new`'s summary fails under storage pressure, the sweep then frees enough
space that a retry would have succeeded (`setItemRes` on the swept store
returns `some`), yet `cacheSummary` leaves the store with no entry at all —
the code never retries, so the summary the claim says would be persisted is
dropped. -/
theorem saveSummaryCache_no_retry_counterexample :
    (SummaryCacheManager.cacheSummary (("new").toList) newSummary bigNow
        pressureStore).entries = [] ∧
    (setItemRes (SummaryCacheManager.cleanupOldCaches bigNow pressureStore)
        (SummaryCacheManager.getCacheKey (("new").toList))
        (StoredVal.cache (SummaryCacheManager.putCacheVal (("new").toList)
          newSummary bigNow pressureStore))).isSome = true := by
  refine ⟨?_, ?_⟩ <;> decide

/-- C8 (amended).  When saving the summary cache fails (the storage write
throws under pressure), the manager triggers the opportunistic eviction
sweep of expired caches across all books and then drops the write without
retrying; no error reaches the caller (the result is simply the swept
store). -/
theorem saveSummaryCache_failure_sweeps_and_drops
    (c : BookSummaryCache) (now : Int) (st : Storage)
    (hfail : setItemRes st (SummaryCacheManager.getCacheKey c.bookId)
      (StoredVal.cache c) = none) :
    SummaryCacheManager.saveSummaryCache c now st =
      SummaryCacheManager.cleanupOldCaches now st := by
  unfold SummaryCacheManager.saveSummaryCache
  rw [hfail]

/-- Witness for the amended C8 at the concrete pressured store: the failing
write of book `new`'s cache value results in exactly the swept store. -/
theorem saveSummaryCache_failure_sweeps_and_drops_witness :
    SummaryCacheManager.saveSummaryCache
        (SummaryCacheManager.putCacheVal (("new").toList) newSummary bigNow
          pressureStore) bigNow pressureStore =
      SummaryCacheManager.cleanupOldCaches bigNow pressureStore :=
  saveSummaryCache_failure_sweeps_and_drops
    (SummaryCacheManager.putCacheVal (("new").toList) newSummary bigNow
      pressureStore) bigNow pressureStore (by decide)

theorem mem_annotAdd {a : Annot} {st : AnnotStore} {ty cfi : Str}
    {d : Option Str} (h : a ∈ annotAdd st ty cfi d) :
    a ∈ st ∨ a = ⟨ty, cfi, d⟩ := by
  unfold annotAdd at h
  by_cases hc : st.any
      (fun b => annotKey b == annotKey ⟨ty, cfi, d⟩) = true
  · rw [if_pos hc] at h
    rcases List.mem_map.mp h with ⟨b, hb, hba⟩
    by_cases hk : annotKey b == annotKey ⟨ty, cfi, d⟩
    · right; rw [if_pos hk] at hba; exact hba.symm
    · left; rw [if_neg hk] at hba; exact hba ▸ hb
  · rw [if_neg hc] at h
    rcases List.mem_append.mp h with hb | hb
    · exact Or.inl hb
    · exact Or.inr (List.mem_singleton.mp hb)

theorem mem_restore_fold :
    ∀ (cands : List Highlight) (st : AnnotStore) (a : Annot),
      a ∈ cands.foldl (fun st h =>
        if dupSkip st h then st
        else annotAdd st hlTypeStr h.cfi (some h.id)) st →
      a ∈ st ∨ ∃ h ∈ cands, a.data = some h.id := by
  intro cands
  induction cands with
  | nil => intro st a h; exact Or.inl h
  | cons hd tl ih =>
    intro st a h
    rcases ih _ a h with hmem | ⟨h', hh', hd'⟩
    · simp only [] at hmem
      by_cases hc : dupSkip st hd = true
      · rw [if_pos hc] at hmem
        exact Or.inl hmem
      · rw [if_neg hc] at hmem
        rcases mem_annotAdd hmem with hmem' | rfl
        · exact Or.inl hmem'
        · exact Or.inr ⟨hd, List.mem_cons_self _ _, rfl⟩
    · exact Or.inr ⟨h', List.mem_cons_of_mem _ hh', hd'⟩

theorem mem_restore {a : Annot} {annots : AnnotStore}
    {highlights : List Highlight} {currentCfi : Option Str}
    (h : a ∈ restoreHighlightsOnCurrentPage annots highlights currentCfi) :
    a ∈ annots ∨ ∃ hl ∈ highlights, a.data = some hl.id := by
  unfold restoreHighlightsOnCurrentPage at h
  by_cases hemp : highlights.isEmpty = true
  · rw [if_pos hemp] at h; exact Or.inl h
  · rw [if_neg hemp] at h
    cases currentCfi with
    | none => exact Or.inl h
    | some cur =>
      simp only [] at h
      by_cases hcand : (highlights.filter
          (fun h => chapterOf h.cfi == chapterOf cur)).isEmpty = true
      · rw [if_pos hcand] at h; exact Or.inl h
      · rw [if_neg hcand] at h
        rcases mem_restore_fold _ _ a h with hmem | ⟨hl, hhl, hda⟩
        · exact Or.inl (List.mem_of_mem_filter hmem)
        · exact Or.inr ⟨hl, List.mem_of_mem_filter hhl, hda⟩

theorem getMetadata_setAssoc_self (k : Str) (v : BookMetadata)
    (store : MetaStore) :
    BookMetadataManager.getMetadata k (setAssoc store k v) = some v := by
  unfold BookMetadataManager.getMetadata
  rw [find?_setAssoc_self]
  rfl

/-- C6.  `deleteHighlight(id)` removes the persisted highlight record from
the stored book metadata (whenever the deleted book's record can still be
looked up, it contains no highlight with the id) and removes every live
overlay whose attached data carries the id, by scanning all overlays; and a
subsequent restoration pass over any current section does not recreate an
overlay for the deleted highlight.  `hwf` states the store invariant that
each metadata record is filed under its own bookId (which every
`saveMetadata` write maintains). -/
theorem deleteHighlight_purges_record_and_overlays
    (highlightId bookId : Str) (now : Int) (annots : AnnotStore)
    (store : MetaStore) (highlights : List Highlight)
    (currentCfi : Option Str)
    (hwf : ∀ e ∈ store, e.2.bookId = e.1) :
    (∀ a ∈ (deleteHighlight highlightId bookId now annots store
        highlights).annots, a.data ≠ some highlightId) ∧
    (∀ m, BookMetadataManager.getMetadata bookId
        (deleteHighlight highlightId bookId now annots store
          highlights).store = some m →
      ∀ h ∈ m.highlights, h.id ≠ highlightId) ∧
    (∀ a ∈ restoreHighlightsOnCurrentPage
        (deleteHighlight highlightId bookId now annots store
          highlights).annots
        (deleteHighlight highlightId bookId now annots store
          highlights).highlights currentCfi,
      a.data ≠ some highlightId) := by
  have hannots : ∀ a ∈ (deleteHighlight highlightId bookId now annots store
      highlights).annots, a.data ≠ some highlightId := by
    intro a ha
    have := (List.mem_filter.mp ha).2
    simpa using this
  have hhl : ∀ h ∈ (deleteHighlight highlightId bookId now annots store
      highlights).highlights, h.id ≠ highlightId := by
    intro h hh
    have := (List.mem_filter.mp hh).2
    simpa using this
  refine ⟨hannots, ?_, ?_⟩
  · intro m hm
    cases hgm : BookMetadataManager.getMetadata bookId store with
    | none =>
      simp [deleteHighlight, BookMetadataManager.removeHighlight, hgm] at hm
    | some m0 =>
      simp only [deleteHighlight, BookMetadataManager.removeHighlight,
        hgm] at hm
      have hbid : m0.bookId = bookId := by
        unfold BookMetadataManager.getMetadata at hgm
        rcases Option.map_eq_some'.mp hgm with ⟨e, hfind, he2⟩
        have hpred : (e.1 == bookId) = true := by
          have hp := List.find?_some hfind
          simpa using hp
        have hmem : e ∈ store := List.mem_of_find?_eq_some hfind
        rw [← he2, hwf e hmem]
        exact (beq_iff_eq.mp hpred)
      unfold BookMetadataManager.saveMetadata at hm
      have hb2 : ({ m0 with
          highlights := (m0.highlights.filter
            (fun h => !(h.id == highlightId))) } : BookMetadata).bookId =
          bookId := hbid
      rw [hb2, getMetadata_setAssoc_self] at hm
      cases hm
      intro h hh
      have := (List.mem_filter.mp hh).2
      simpa using this
  · intro a ha
    rcases mem_restore ha with hmem | ⟨hl, hhl', hda⟩
    · exact hannots a hmem
    · rw [hda]
      intro hcontra
      exact hhl hl hhl' (Option.some.injEq _ _ ▸ hcontra)

/-- Witness for C6 at a concrete input: deleting highlight `h1` of book
`b` from a store holding it, with a live overlay carrying its id and one
unrelated overlay, purges the record and both checks, and the following
restoration pass recreates nothing for it. -/
theorem deleteHighlight_purges_record_and_overlays_witness :
    (∀ a ∈ (deleteHighlight (("h1").toList) (("b").toList) 5
        [⟨hlTypeStr, ("epubcfi(/6/4!/4/2)").toList, some (("h1").toList)⟩]
        [(("b").toList, sampleBookMetadata)]
        [sampleHighlight]).annots, a.data ≠ some (("h1").toList)) ∧
    (∀ m, BookMetadataManager.getMetadata (("b").toList)
        (deleteHighlight (("h1").toList) (("b").toList) 5
          [⟨hlTypeStr, ("epubcfi(/6/4!/4/2)").toList, some (("h1").toList)⟩]
          [(("b").toList, sampleBookMetadata)]
          [sampleHighlight]).store = some m →
      ∀ h ∈ m.highlights, h.id ≠ (("h1").toList)) ∧
    (∀ a ∈ restoreHighlightsOnCurrentPage
        (deleteHighlight (("h1").toList) (("b").toList) 5
          [⟨hlTypeStr, ("epubcfi(/6/4!/4/2)").toList, some (("h1").toList)⟩]
          [(("b").toList, sampleBookMetadata)]
          [sampleHighlight]).annots
        (deleteHighlight (("h1").toList) (("b").toList) 5
          [⟨hlTypeStr, ("epubcfi(/6/4!/4/2)").toList, some (("h1").toList)⟩]
          [(("b").toList, sampleBookMetadata)]
          [sampleHighlight]).highlights
        (some (("epubcfi(/6/4!/4/10)").toList)),
      a.data ≠ some (("h1").toList)) :=
  deleteHighlight_purges_record_and_overlays (("h1").toList) (("b").toList) 5
    [⟨hlTypeStr, ("epubcfi(/6/4!/4/2)").toList, some (("h1").toList)⟩]
    [(("b").toList, sampleBookMetadata)] [sampleHighlight]
    (some (("epubcfi(/6/4!/4/10)").toList)) (by decide)

theorem annotAdd_eq_append {st : AnnotStore} {h : Highlight}
    (hT : ∀ a ∈ st, a.type = hlTypeStr)
    (hcfi : st.any (fun a => a.cfiRange == h.cfi && a.type == hlTypeStr) =
      false) :
    annotAdd st hlTypeStr h.cfi (some h.id) =
      st ++ [⟨hlTypeStr, h.cfi, some h.id⟩] := by
  unfold annotAdd
  have hkey : st.any
      (fun b => annotKey b == annotKey ⟨hlTypeStr, h.cfi, some h.id⟩) =
      false := by
    rw [List.any_eq_false]
    intro b hb hk
    have hbt : b.type = hlTypeStr := hT b hb
    have hforall := List.any_eq_false.mp hcfi b hb
    apply hforall
    have hkeq : b.cfiRange ++ b.type = h.cfi ++ hlTypeStr := beq_iff_eq.mp hk
    rw [hbt] at hkeq
    have hcr : b.cfiRange = h.cfi := List.append_cancel_right hkeq
    simp [hcr, hbt]
  rw [if_neg (by simp [hkey])]

theorem restore_fold_types :
    ∀ (cands : List Highlight) (st : AnnotStore),
      (∀ a ∈ st, a.type = hlTypeStr) →
      ∀ a ∈ cands.foldl (fun st h =>
          if dupSkip st h then st
          else annotAdd st hlTypeStr h.cfi (some h.id)) st,
        a.type = hlTypeStr := by
  intro cands
  induction cands with
  | nil => intro st hT a ha; exact hT a ha
  | cons hd tl ih =>
    intro st hT a ha
    rw [List.foldl_cons] at ha
    by_cases hc : dupSkip st hd = true
    · rw [if_pos hc] at ha
      exact ih st hT a ha
    · have hcB : dupSkip st hd = false := by
        revert hc; cases dupSkip st hd <;> simp
      have hcfi : st.any
          (fun a => a.cfiRange == hd.cfi && a.type == hlTypeStr) = false := by
        have h2 := hcB
        unfold dupSkip at h2
        exact (Bool.or_eq_false_iff.mp h2).2
      rw [if_neg hc, annotAdd_eq_append hT hcfi] at ha
      apply ih (st ++ [⟨hlTypeStr, hd.cfi, some hd.id⟩]) ?_ a ha
      intro b hb
      rcases List.mem_append.mp hb with h1 | h2
      · exact hT b h1
      · rw [List.mem_singleton.mp h2]

theorem restore_fold_ext :
    ∀ (cands : List Highlight) (st : AnnotStore),
      (∀ a ∈ st, a.type = hlTypeStr) →
      ∃ ext, cands.foldl (fun st h =>
          if dupSkip st h then st
          else annotAdd st hlTypeStr h.cfi (some h.id)) st = st ++ ext ∧
        ∀ a ∈ ext, ∃ h ∈ cands, a = ⟨hlTypeStr, h.cfi, some h.id⟩ := by
  intro cands
  induction cands with
  | nil => intro st hT; exact ⟨[], by simp, by simp⟩
  | cons hd tl ih =>
    intro st hT
    by_cases hc : dupSkip st hd = true
    · rcases ih st hT with ⟨ext, he, hx⟩
      refine ⟨ext, ?_, ?_⟩
      · rw [List.foldl_cons, if_pos hc]
        exact he
      · intro a ha
        rcases hx a ha with ⟨h, hh, hah⟩
        exact ⟨h, List.mem_cons_of_mem _ hh, hah⟩
    · have hcB : dupSkip st hd = false := by
        revert hc; cases dupSkip st hd <;> simp
      have hcfi : st.any
          (fun a => a.cfiRange == hd.cfi && a.type == hlTypeStr) = false := by
        have h2 := hcB
        unfold dupSkip at h2
        exact (Bool.or_eq_false_iff.mp h2).2
      have hT' : ∀ a ∈ st ++ [(⟨hlTypeStr, hd.cfi, some hd.id⟩ : Annot)],
          a.type = hlTypeStr := by
        intro b hb
        rcases List.mem_append.mp hb with h1 | h2
        · exact hT b h1
        · rw [List.mem_singleton.mp h2]
      rcases ih (st ++ [⟨hlTypeStr, hd.cfi, some hd.id⟩]) hT' with ⟨ext, he, hx⟩
      refine ⟨⟨hlTypeStr, hd.cfi, some hd.id⟩ :: ext, ?_, ?_⟩
      · rw [List.foldl_cons, if_neg hc, annotAdd_eq_append hT hcfi, he,
          List.append_assoc]
        rfl
      · intro a ha
        rcases List.mem_cons.mp ha with rfl | ha'
        · exact ⟨hd, List.mem_cons_self _ _, rfl⟩
        · rcases hx a ha' with ⟨h, hh, hah⟩
          exact ⟨h, List.mem_cons_of_mem _ hh, hah⟩

theorem dupSkip_append {st ext : AnnotStore} {h : Highlight}
    (hP : dupSkip st h = true) : dupSkip (st ++ ext) h = true := by
  unfold dupSkip at hP ⊢
  rcases Bool.or_eq_true_iff.mp hP with h1 | h2
  · simp [List.any_append, h1]
  · simp [List.any_append, h2]

theorem restore_fold_dupSkip :
    ∀ (cands : List Highlight) (st : AnnotStore),
      (∀ a ∈ st, a.type = hlTypeStr) →
      ∀ h ∈ cands, dupSkip (cands.foldl (fun st h =>
        if dupSkip st h then st
        else annotAdd st hlTypeStr h.cfi (some h.id)) st) h = true := by
  intro cands
  induction cands with
  | nil => intro st hT h hh; exact absurd hh (List.not_mem_nil h)
  | cons hd tl ih =>
    intro st hT h hh
    rw [List.foldl_cons]
    by_cases hc : dupSkip st hd = true
    · rw [if_pos hc]
      rcases List.mem_cons.mp hh with rfl | hmem
      · rcases restore_fold_ext tl st hT with ⟨ext, he, _⟩
        rw [he]
        exact dupSkip_append hc
      · exact ih st hT h hmem
    · have hcB : dupSkip st hd = false := by
        revert hc; cases dupSkip st hd <;> simp
      have hcfi : st.any
          (fun a => a.cfiRange == hd.cfi && a.type == hlTypeStr) = false := by
        have h2 := hcB
        unfold dupSkip at h2
        exact (Bool.or_eq_false_iff.mp h2).2
      rw [if_neg hc, annotAdd_eq_append hT hcfi]
      have hT' : ∀ a ∈ st ++ [(⟨hlTypeStr, hd.cfi, some hd.id⟩ : Annot)],
          a.type = hlTypeStr := by
        intro b hb
        rcases List.mem_append.mp hb with h1 | h2
        · exact hT b h1
        · rw [List.mem_singleton.mp h2]
      rcases List.mem_cons.mp hh with rfl | hmem
      · have hbase : dupSkip
            (st ++ [(⟨hlTypeStr, h.cfi, some h.id⟩ : Annot)]) h = true := by
          unfold dupSkip
          simp
        rcases restore_fold_ext tl
          (st ++ [(⟨hlTypeStr, h.cfi, some h.id⟩ : Annot)]) hT' with
          ⟨ext, he, _⟩
        rw [he]
        exact dupSkip_append hbase
      · exact ih (st ++ [⟨hlTypeStr, hd.cfi, some hd.id⟩]) hT' h hmem

theorem restore_fold_skip :
    ∀ (cands : List Highlight) (st : AnnotStore),
      (∀ h ∈ cands, dupSkip st h = true) →
      cands.foldl (fun st h =>
        if dupSkip st h then st
        else annotAdd st hlTypeStr h.cfi (some h.id)) st = st := by
  intro cands
  induction cands with
  | nil => intro st _; rfl
  | cons hd tl ih =>
    intro st hall
    rw [List.foldl_cons, if_pos (hall hd (List.mem_cons_self _ _))]
    exact ih st (fun h hh => hall h (List.mem_cons_of_mem _ hh))

/-- C1.  At most one live overlay exists per highlight id: before creating
an overlay for a candidate highlight the restoration pass checks both for
an overlay whose attached data carries the highlight's id and for a
`highlight`-type overlay bound to the same stored CFI, skipping when either
holds; hence running `restoreHighlightsOnCurrentPage` twice in a row for
the same visible section with an unchanged highlight set adds no overlay
the second time (the second run returns the store unchanged).  `hT` states
that every pre-existing overlay is `highlight`-typed (the only kind this
application ever creates); `hK` states that no highlight's overlay key
collides with the reserved `search-highlight-` key prefix of transient
search decorations. -/
theorem restoreHighlightsOnCurrentPage_idempotent
    (annots : AnnotStore) (highlights : List Highlight)
    (currentCfi : Option Str)
    (hT : ∀ a ∈ annots, a.type = hlTypeStr)
    (hK : ∀ h ∈ highlights,
      searchPrefixStr.isPrefixOf (h.cfi ++ hlTypeStr) = false) :
    restoreHighlightsOnCurrentPage
        (restoreHighlightsOnCurrentPage annots highlights currentCfi)
        highlights currentCfi =
      restoreHighlightsOnCurrentPage annots highlights currentCfi := by
  by_cases hemp : highlights.isEmpty = true
  · have hr : ∀ A : AnnotStore,
        restoreHighlightsOnCurrentPage A highlights currentCfi = A := by
      intro A
      unfold restoreHighlightsOnCurrentPage
      rw [if_pos hemp]
    rw [hr, hr]
  · cases currentCfi with
    | none =>
      have hr : ∀ A : AnnotStore,
          restoreHighlightsOnCurrentPage A highlights none = A := by
        intro A
        unfold restoreHighlightsOnCurrentPage
        rw [if_neg hemp]
      rw [hr, hr]
    | some cur =>
      by_cases hcand : (highlights.filter
          (fun h => chapterOf h.cfi == chapterOf cur)).isEmpty = true
      · have hr : ∀ A : AnnotStore,
            restoreHighlightsOnCurrentPage A highlights (some cur) = A := by
          intro A
          unfold restoreHighlightsOnCurrentPage
          rw [if_neg hemp]
          simp only []
          rw [if_pos hcand]
        rw [hr, hr]
      · have hr : ∀ A : AnnotStore,
            restoreHighlightsOnCurrentPage A highlights (some cur) =
              (highlights.filter
                (fun h => chapterOf h.cfi == chapterOf cur)).foldl
                (fun st h =>
                  if dupSkip st h then st
                  else annotAdd st hlTypeStr h.cfi (some h.id))
                (A.filter
                  (fun a => !(searchPrefixStr.isPrefixOf (annotKey a)))) := by
          intro A
          unfold restoreHighlightsOnCurrentPage
          rw [if_neg hemp]
          simp only []
          rw [if_neg hcand]
        have hTc : ∀ a ∈ annots.filter
            (fun a => !(searchPrefixStr.isPrefixOf (annotKey a))),
            a.type = hlTypeStr :=
          fun a ha => hT a (List.mem_of_mem_filter ha)
        rcases restore_fold_ext (highlights.filter
            (fun h => chapterOf h.cfi == chapterOf cur))
            (annots.filter
              (fun a => !(searchPrefixStr.isPrefixOf (annotKey a)))) hTc with
          ⟨ext, hext, hxelem⟩
        have hkeys : ∀ a ∈ restoreHighlightsOnCurrentPage annots highlights
            (some cur),
            (!(searchPrefixStr.isPrefixOf (annotKey a))) = true := by
          intro a ha
          rw [hr annots, hext] at ha
          rcases List.mem_append.mp ha with h1 | h2
          · simpa using (List.mem_filter.mp h1).2
          · rcases hxelem a h2 with ⟨h, hh, rfl⟩
            have : annotKey ⟨hlTypeStr, h.cfi, some h.id⟩ =
                h.cfi ++ hlTypeStr := rfl
            rw [this, hK h (List.mem_of_mem_filter hh)]
            rfl
        have hfilter1 : (restoreHighlightsOnCurrentPage annots highlights
            (some cur)).filter
            (fun a => !(searchPrefixStr.isPrefixOf (annotKey a))) =
            restoreHighlightsOnCurrentPage annots highlights (some cur) :=
          List.filter_eq_self.mpr hkeys
        have hdup : ∀ h ∈ highlights.filter
            (fun h => chapterOf h.cfi == chapterOf cur),
            dupSkip (restoreHighlightsOnCurrentPage annots highlights
              (some cur)) h = true := by
          intro h hh
          rw [hr annots]
          exact restore_fold_dupSkip _ _ hTc h hh
        rw [hr (restoreHighlightsOnCurrentPage annots highlights (some cur)),
          hfilter1]
        exact restore_fold_skip _ _ hdup

/-- Witness for C1 at a concrete input: restoring the single highlight of
the current chapter onto an empty overlay store twice yields the same store
as restoring it once. -/
theorem restoreHighlightsOnCurrentPage_idempotent_witness :
    restoreHighlightsOnCurrentPage
        (restoreHighlightsOnCurrentPage [] [sampleHighlight]
          (some (("epubcfi(/6/4!/4/10)").toList)))
        [sampleHighlight] (some (("epubcfi(/6/4!/4/10)").toList)) =
      restoreHighlightsOnCurrentPage [] [sampleHighlight]
        (some (("epubcfi(/6/4!/4/10)").toList)) :=
  restoreHighlightsOnCurrentPage_idempotent [] [sampleHighlight]
    (some (("epubcfi(/6/4!/4/10)").toList))
    (fun a ha => absurd ha (List.not_mem_nil a)) (by decide)

theorem takeLastN_zero (l : Str) : takeLastN 0 l = [] := by
  simp [takeLastN]

theorem takeLastN_suffix (n : Nat) (l : Str) : takeLastN n l <:+ l :=
  List.drop_suffix _ _

theorem takeLastN_of_suffix {s t : Str} (h : s <:+ t) :
    takeLastN s.length t = s := by
  rcases h with ⟨u, rfl⟩
  unfold takeLastN
  rw [List.length_append]
  have hu : u.length + s.length - s.length = u.length := by omega
  rw [hu, List.drop_left]

theorem takeLastN_length_le (n : Nat) (l : Str) : (takeLastN n l).length ≤ n := by
  unfold takeLastN
  rw [List.length_drop]
  omega

theorem trimL_append_of_ne_nil {A : Str} (B : Str) (h : trimL A ≠ []) :
    trimL (A ++ B) = trimL A ++ B := by
  unfold trimL at h ⊢
  rw [List.dropWhile_append, if_neg (by simpa [List.isEmpty_iff] using h)]

theorem trimR_append_of_ne_nil (A : Str) {B : Str} (h : trimR B ≠ []) :
    trimR (A ++ B) = A ++ trimR B := by
  have h' : B.reverse.dropWhile isJsWS ≠ [] := by
    intro hx
    apply h
    unfold trimR
    rw [hx]
    rfl
  unfold trimR
  rw [List.reverse_append, List.dropWhile_append,
    if_neg (by simpa [List.isEmpty_iff] using h'), List.reverse_append,
    List.reverse_reverse]

theorem trimR_decomp (l : Str) :
    ∃ w, l = trimR l ++ w ∧ ∀ c ∈ w, isJsWS c = true := by
  refine ⟨(l.reverse.takeWhile isJsWS).reverse, ?_, ?_⟩
  · have h : l = ((l.reverse.takeWhile isJsWS) ++
        (l.reverse.dropWhile isJsWS)).reverse := by
      rw [List.takeWhile_append_dropWhile, List.reverse_reverse]
    rw [List.reverse_append] at h
    exact h
  · intro c hc
    exact List.mem_takeWhile_imp (List.mem_reverse.mp hc)

theorem trimR_isPrefix (l : Str) : trimR l <+: l := by
  rcases trimR_decomp l with ⟨w, hw, _⟩
  exact ⟨w, hw.symm⟩

theorem suffix_trimL_of_head {s t : Str} (hsuf : s <:+ t) (hne : s ≠ [])
    (hhead : isJsWS (s.head hne) = false) : s <:+ trimL t := by
  rcases hsuf with ⟨u, rfl⟩
  unfold trimL
  rw [List.dropWhile_append]
  by_cases hu : (u.dropWhile isJsWS).isEmpty = true
  · rw [if_pos hu]
    cases s with
    | nil => exact absurd rfl hne
    | cons c cs =>
      rw [List.dropWhile_cons_of_neg (by simpa using hhead)]
  · rw [if_neg hu]
    exact List.suffix_append _ _

theorem trimStr_eq_nil_iff (l : Str) :
    trimStr l = [] ↔ ∀ c ∈ l, isJsWS c = true := by
  constructor
  · intro h c hc
    rcases trimR_decomp l with ⟨w, hw, hwws⟩
    have hall : ∀ x ∈ trimR l, isJsWS x = true := by
      intro x hx
      exact List.dropWhile_eq_nil_iff.mp h x hx
    rw [hw] at hc
    rcases List.mem_append.mp hc with h1 | h2
    · exact hall c h1
    · exact hwws c h2
  · intro hall
    unfold trimStr trimL
    apply List.dropWhile_eq_nil_iff.mpr
    intro x hx
    exact hall x ((trimR_isPrefix l).subset hx)

theorem trimStr_ne_nil_iff (l : Str) :
    trimStr l ≠ [] ↔ ∃ c ∈ l, isJsWS c = false := by
  rw [Ne, trimStr_eq_nil_iff]
  push_neg
  simp [Bool.not_eq_true]

/-- The core overlap property of the chunk seeding: for any closed buffer
`B`, the next chunk closed from the seeded buffer
`B.slice(-50) + ' ' + p + …` begins (after trimming) with a suffix of
length at most 50 of the previous chunk's stored (trimmed) text.  When the
50-character window is entirely whitespace the empty suffix witnesses the
bound. -/
theorem chunk_overlap_core (B p ext : Str)
    (hp : ∃ c ∈ p, isJsWS c = false) :
    ∃ k, k ≤ 50 ∧
      takeLastN k (trimStr B) <+:
        trimStr (takeLastN 50 B ++ ' ' :: (p ++ ext)) := by
  by_cases hW : trimStr (takeLastN 50 B) = []
  · exact ⟨0, Nat.zero_le _, by rw [takeLastN_zero]; exact List.nil_prefix⟩
  · have hTne : trimR (' ' :: (p ++ ext)) ≠ [] := by
      intro hx
      rcases trimR_decomp (' ' :: (p ++ ext)) with ⟨w, hw, hwws⟩
      rw [hx, List.nil_append] at hw
      rcases hp with ⟨c, hcp, hcw⟩
      have hcT : c ∈ (' ' :: (p ++ ext)) :=
        List.mem_cons_of_mem _ (List.mem_append.mpr (Or.inl hcp))
      rw [hw] at hcT
      rw [hwws c hcT] at hcw
      exact Bool.noConfusion hcw
    have htrW : trimR (takeLastN 50 B) ≠ [] := by
      intro hx
      apply hW
      unfold trimStr
      rw [hx]
      rfl
    have htlW : trimL (takeLastN 50 B) ≠ [] := by
      intro hx
      apply hW
      apply (trimStr_eq_nil_iff _).mpr
      intro c hc
      exact List.dropWhile_eq_nil_iff.mp hx c hc
    have hsuf : trimStr (takeLastN 50 B) <:+ trimStr B := by
      rcases takeLastN_suffix 50 B with ⟨u, hu⟩
      have h1 : trimR B = u ++ trimR (takeLastN 50 B) := by
        conv_lhs => rw [← hu]
        exact trimR_append_of_ne_nil u htrW
      have h2 : trimStr (takeLastN 50 B) <:+ trimR B := by
        rw [h1]
        exact (List.dropWhile_suffix _).trans (List.suffix_append _ _)
      have hne : trimStr (takeLastN 50 B) ≠ [] := hW
      have hhead : isJsWS ((trimStr (takeLastN 50 B)).head hne) = false :=
        List.head_dropWhile_not isJsWS _ _
      exact suffix_trimL_of_head h2 hne hhead
    have hk : (trimStr (takeLastN 50 B)).length ≤ 50 := by
      have l1 : (trimStr (takeLastN 50 B)).length ≤
          (trimR (takeLastN 50 B)).length :=
        (List.dropWhile_suffix _).length_le
      have l2 : (trimR (takeLastN 50 B)).length ≤ (takeLastN 50 B).length :=
        (trimR_isPrefix _).length_le
      have l3 : (takeLastN 50 B).length ≤ 50 := takeLastN_length_le 50 B
      omega
    refine ⟨(trimStr (takeLastN 50 B)).length, hk, ?_⟩
    rw [takeLastN_of_suffix hsuf]
    have e1 : trimR (takeLastN 50 B ++ ' ' :: (p ++ ext)) =
        takeLastN 50 B ++ trimR (' ' :: (p ++ ext)) :=
      trimR_append_of_ne_nil _ hTne
    have e2 : trimStr (takeLastN 50 B ++ ' ' :: (p ++ ext)) =
        trimL (takeLastN 50 B) ++ trimR (' ' :: (p ++ ext)) := by
      unfold trimStr
      rw [e1]
      exact trimL_append_of_ne_nil _ htlW
    rcases trimR_decomp (takeLastN 50 B) with ⟨w2, hw2, _⟩
    have e3 : trimL (takeLastN 50 B) = trimStr (takeLastN 50 B) ++ w2 := by
      conv_lhs => rw [hw2]
      exact trimL_append_of_ne_nil w2 hW
    rw [e2, e3, List.append_assoc]
    exact List.prefix_append _ _

theorem chunkLoop_head (href : Str) (spine : Nat) :
    ∀ (ps : List Str) (cur : Str) (off : Int) (idx : Nat),
      trimStr cur ≠ [] →
      ∃ qs c rest, chunkLoop href spine ps cur off idx = c :: rest ∧
        c.text = trimStr (cur ++ joins qs) := by
  intro ps
  induction ps with
  | nil =>
    intro cur off idx hcur
    refine ⟨[], ⟨chunkId href idx, trimStr cur, href, spine, idx,
      off - (cur.length : Int), off, none⟩, [], ?_, ?_⟩
    · rw [chunkLoop, if_pos (List.length_pos.mpr hcur)]
    · simp [joins]
  | cons p ps ih =>
    intro cur off idx hcur
    by_cases hov : 500 < cur.length + p.length ∧ 0 < cur.length
    · refine ⟨[], ⟨chunkId href idx, trimStr cur, href, spine, idx,
        off - (cur.length : Int), off, none⟩,
        chunkLoop href spine ps (takeLastN 50 cur ++ ' ' :: p)
          (off + (p.length : Int) + 1) (idx + 1), ?_, ?_⟩
      · rw [chunkLoop, if_pos hov]
      · simp [joins]
    · have hcne : cur ≠ [] := by
        intro hx
        apply hcur
        rw [hx]
        rfl
      have hlen : ¬ cur.length = 0 := by
        simpa [List.length_eq_zero] using hcne
      have hcur' : trimStr (cur ++ ' ' :: p) ≠ [] := by
        rw [trimStr_ne_nil_iff] at hcur ⊢
        rcases hcur with ⟨c, hc, hcw⟩
        exact ⟨c, List.mem_append.mpr (Or.inl hc), hcw⟩
      rcases ih (cur ++ ' ' :: p) (off + (p.length : Int) + 1) idx hcur' with
        ⟨qs, c, rest, heq, htext⟩
      refine ⟨p :: qs, c, rest, ?_, ?_⟩
      · rw [chunkLoop, if_neg hov, if_neg hlen]
        exact heq
      · rw [htext]
        congr 1
        simp [joins, List.append_assoc]

theorem chunkLoop_chain (href : Str) (spine : Nat) :
    ∀ (ps : List Str) (cur : Str) (off : Int) (idx : Nat),
      (∀ p ∈ ps, trimStr p ≠ []) →
      List.Chain' (fun a b => ∃ k, k ≤ 50 ∧ takeLastN k a.text <+: b.text)
        (chunkLoop href spine ps cur off idx) := by
  intro ps
  induction ps with
  | nil =>
    intro cur off idx _
    rw [chunkLoop]
    by_cases hc : 0 < (trimStr cur).length
    · rw [if_pos hc]
      exact List.chain'_singleton _
    · rw [if_neg hc]
      exact List.chain'_nil
  | cons p ps ih =>
    intro cur off idx hps
    have hpne : trimStr p ≠ [] := hps p (List.mem_cons_self _ _)
    have hps' : ∀ q ∈ ps, trimStr q ≠ [] :=
      fun q hq => hps q (List.mem_cons_of_mem _ hq)
    by_cases hov : 500 < cur.length + p.length ∧ 0 < cur.length
    · rw [chunkLoop, if_pos hov, List.chain'_cons']
      constructor
      · intro y hy
        have hcur' : trimStr (takeLastN 50 cur ++ ' ' :: p) ≠ [] := by
          rw [trimStr_ne_nil_iff]
          rcases (trimStr_ne_nil_iff p).mp hpne with ⟨c, hc, hcw⟩
          exact ⟨c, List.mem_append.mpr
            (Or.inr (List.mem_cons_of_mem _ hc)), hcw⟩
        rcases chunkLoop_head href spine ps (takeLastN 50 cur ++ ' ' :: p)
          (off + (p.length : Int) + 1) (idx + 1) hcur' with
          ⟨qs, c, rest, heq, htext⟩
        rw [heq] at hy
        obtain rfl : c = y := by simpa using hy
        have e : (takeLastN 50 cur ++ ' ' :: p) ++ joins qs =
            takeLastN 50 cur ++ ' ' :: (p ++ joins qs) := by
          simp [List.append_assoc]
        rw [htext, e]
        exact chunk_overlap_core cur p (joins qs)
          ((trimStr_ne_nil_iff p).mp hpne)
      · exact ih (takeLastN 50 cur ++ ' ' :: p)
          (off + (p.length : Int) + 1) (idx + 1) hps'
    · rw [chunkLoop, if_neg hov]
      exact ih _ (off + (p.length : Int) + 1) idx hps'

/-- C4.  For every section text and every chunk after the first that
`createChunksForSection` (chunkSize 500, overlap 50) produces from it, the
chunk's stored text begins with a suffix of length at most 50 taken from
the previous chunk's stored text (the trailing-`overlap` seed carried from
the closed buffer into the next; degenerate cases — an all-whitespace
50-character window — are covered by the zero-length suffix the bound
admits). -/
theorem createChunksForSection_overlap (textContent href : Str)
    (spineIndex : Nat) :
    List.Chain' (fun a b => ∃ k, k ≤ 50 ∧ takeLastN k a.text <+: b.text)
      (createChunksForSection textContent href spineIndex) := by
  unfold createChunksForSection
  apply chunkLoop_chain
  intro p hp
  have h2 := (List.mem_filter.mp hp).2
  have h3 : 0 < (trimStr p).length := of_decide_eq_true h2
  intro hx
  rw [hx] at h3
  exact Nat.lt_irrefl 0 h3

end Libra
